import Mathlib

/-!
Verification of the chordgrams chord-sheet tool (`chords.py`).

The Python source is shallowly embedded below.  Python `int` is `Int`
(Python's `%` on a positive modulus agrees with `Int.emod`), Python `str`
is `String` (or `List Char` while scanning), Python `None`-able values are
`Option`, Python `dict` (insertion-ordered, unique keys) is an association
list, and every code path that can raise (`ValueError`, `IndexError`,
`NameError`) returns `Except String _`.
-/

instance {ε α : Type} [DecidableEq ε] [DecidableEq α] : DecidableEq (Except ε α) :=
  fun a b =>
    match a, b with
    | .ok a, .ok b => decidable_of_iff (a = b) (by simp)
    | .error e, .error f => decidable_of_iff (e = f) (by simp)
    | .ok _, .error _ => isFalse (by intro h; cases h)
    | .error _, .ok _ => isFalse (by intro h; cases h)

/-- Scale quality of a chord: Python strings `"major"` / `"minor"`. -/
inductive Scale where
  | major
  | minor
deriving DecidableEq, Repr

/-- `Chord.notes` from the source: pitch-class index to natural note name,
`["C", "", "D", "", "E", "F", "", "G", "", "A", "", "B"]`. -/
def notes : List String :=
  [("C"), (""), ("D"), (""), ("E"), ("F"), (""), ("G"), (""), ("A"), (""), ("B")]

/-- `Chord.mods` from the source: the fixed modifier vocabulary, in its
exact listed order. -/
def modsList : List String :=
  [("-"), ("5"), ("6"), ("7"), ("9"), ("11"), ("13"), ("maj7"), ("aug"),
   ("sus4"), ("sus2"), ("dim"), ("add9")]

/-- A chord: `val` is the root pitch class, `shiftpref` the recorded
accidental character (`'#'` or `'b'`), `mods` the ordered modifier list,
`bass` the optional slash-bass pitch class (`none` models Python `None`). -/
structure Chord where
  val : Int
  scale : Scale
  shiftpref : Option Char
  mods : List String
  bass : Option Int
deriving DecidableEq, Repr

/-- `Chord.__init__`: normalizes `val` by `% 12` and `bass` by
`bass % 12 if bass else bass` — note the truthiness test: a bass of `0`
(and `None`) is left untouched. -/
def Chord.init (val : Int) (scale : Scale) (shiftpref : Option Char)
    (mods : List String) (bass : Option Int) : Chord :=
  { val := val % 12
    scale := scale
    shiftpref := shiftpref
    mods := mods
    bass := match bass with
      | none => none
      | some b => if b = 0 then some 0 else some (b % 12) }

/-- `Chord.__add__`: transpose upwards.  The bass is shifted only when it
is truthy (`self.bass + other if self.bass else self.bass`). -/
def Chord.add (c : Chord) (n : Int) : Chord :=
  Chord.init (c.val + n) c.scale c.shiftpref c.mods
    (match c.bass with
      | none => none
      | some b => if b = 0 then some 0 else some (b + n))

/-- `Chord.__iadd__`: in-place transpose; same truthiness test on the bass. -/
def Chord.iadd (c : Chord) (n : Int) : Chord :=
  { c with
    val := (c.val + n) % 12
    bass := match c.bass with
      | none => none
      | some b => if b = 0 then some 0 else some ((b + n) % 12) }

/-- `Chord.__sub__`: `self + -other`. -/
def Chord.sub (c : Chord) (n : Int) : Chord :=
  c.add (-n)

/-- `Chord.__pos__`: copy with spelling preference `'#'`. -/
def Chord.pos (c : Chord) : Chord :=
  { c with shiftpref := some '#' }

/-- `Chord.__neg__`: copy with spelling preference `'b'`. -/
def Chord.neg (c : Chord) : Chord :=
  { c with shiftpref := some 'b' }

/-- List indexing `Chord.notes[i]`.  Every reachable call site passes
`0 ≤ i < 12` (`val` and `bass` are kept in range by `Chord.__init__` and
`num2str` only offsets by one inside the table), so plain `getD` is a
faithful model. -/
def noteAt (i : Int) : String :=
  notes.getD i.toNat ("")

/-- `Chord.num2str`: natural pitch classes render verbatim; accidental ones
use `notes[num-1] + "#"` under a sharp preference and `notes[num+1] + "b"`
otherwise. -/
def num2str (shiftpref : Option Char) (num : Int) : String :=
  let text := noteAt num
  if text = ("") then
    if shiftpref = some '#' then noteAt (num - 1) ++ ("#")
    else noteAt (num + 1) ++ ("b")
  else text

/-- `Chord.__str__`: root name, `"m"` for minor, the modifiers in stored
order, then `"/" + bass name` when a bass is present (tested with
`is not None`, not truthiness). -/
def Chord.toStr (c : Chord) : String :=
  num2str c.shiftpref c.val
    ++ (if c.scale = Scale.minor then ("m") else (""))
    ++ String.join c.mods
    ++ (match c.bass with
        | some b => ("/") ++ num2str c.shiftpref b
        | none => (""))

/-- `Chord.notes.index(main)`: position of a note letter in the table,
`none` when Python would raise `ValueError`. -/
def noteIndex (c : Char) : Option Nat :=
  notes.findIdx? (fun s => s == String.singleton c)

/-- `"b#".index(ch)`: `0` for `'b'`, `1` for `'#'`, `none` when Python
would raise `ValueError`. -/
def accIdx (c : Char) : Option Int :=
  if c = 'b' then some 0 else if c = '#' then some 1 else none

/-- `text.startswith(mod)` on character lists. -/
def chPre : List Char → List Char → Bool
  | [], _ => true
  | _ :: _, [] => false
  | a :: as, b :: bs => if a = b then chPre as bs else false

/-- The modifier vocabulary as character lists (`modsChars = modsList.map
String.toList`, see `modsChars_eq`), the form the scanner works on. -/
def modsChars : List (List Char) :=
  [['-'], ['5'], ['6'], ['7'], ['9'], ['1', '1'], ['1', '3'],
   ['m', 'a', 'j', '7'], ['a', 'u', 'g'], ['s', 'u', 's', '4'],
   ['s', 'u', 's', '2'], ['d', 'i', 'm'], ['a', 'd', 'd', '9']]

theorem modsChars_eq : modsChars = modsList.map String.toList := by decide

/-- One pass of `for mod in Chord.mods: if text.startswith(mod)`: the first
vocabulary entry the remaining text starts with. -/
def findMod (text : List Char) : Option (List Char) :=
  modsChars.find? (fun m => chPre m text)

theorem findMod_mem {text : List Char} {m : List Char} (h : findMod text = some m) :
    m ∈ modsChars :=
  List.mem_of_find?_eq_some h

theorem modsChars_len : ∀ m ∈ modsChars, 1 ≤ m.length := by decide

/-- The `while text:` modifier loop of `Chord.from_text`.  Python pushes
each matched modifier onto a growing list and assigns `bass` at most once
(anything left over after a slash bass raises), so returning the parsed
suffix and consing the matched modifier in front is the same computation.
The slash branch follows lines 272–279: `text[1]` must be a note letter
(`IndexError` when missing), one more character is read as an accidental
via `"b#".index` (`ValueError` when it is not `b`/`#`), and any remaining
text raises `Remaining mods`.  The `fuel` argument only bounds the number
of iterations so that the recursion is structural; every iteration
consumes at least one character, so starting from `text.length` the
exhausted-fuel branch is unreachable (`modLoopF_fuel` below). -/
def modLoopF : Nat → List Char → Except String (List String × Option Int)
  | _, [] => .ok ([], none)
  | 0, _ :: _ => .error ("fuel exhausted (unreachable)")
  | fuel + 1, c :: cs =>
    match findMod (c :: cs) with
    | some m =>
      (modLoopF fuel ((c :: cs).drop m.length)).map (fun p => (String.mk m :: p.1, p.2))
    | none =>
      if c = '/' then
        match cs with
        | [] => .error ("IndexError")
        | c1 :: rest =>
          match noteIndex c1 with
          | none => .error ("ValueError: not in list")
          | some b =>
            match rest with
            | [] => .ok ([], some (b : Int))
            | c2 :: rest2 =>
              match accIdx c2 with
              | none => .error ("ValueError: substring not found")
              | some d =>
                if rest2 = [] then .ok ([], some (((b : Int) + d * 2 - 1) % 12))
                else .error (("Remaining mods: ") ++ String.mk rest2)
      else .error (("Remaining mods: ") ++ String.mk (c :: cs))

/-- The modifier loop with enough fuel for its input. -/
def modLoop (text : List Char) : Except String (List String × Option Int) :=
  modLoopF text.length text

theorem findMod_drop_lt {c : Char} {cs : List Char} {m : List Char}
    (h : findMod (c :: cs) = some m) :
    ((c :: cs).drop m.length).length < (c :: cs).length := by
  have h1 : 1 ≤ m.length := modsChars_len m (findMod_mem h)
  simp only [List.length_drop, List.length_cons]
  omega

/-- Fuel irrelevance: any fuel at least the text length computes the same
result, so `modLoop` is the Python loop. -/
theorem modLoopF_fuel : ∀ (n : Nat) (text : List Char) (f₁ f₂ : Nat),
    text.length ≤ n → text.length ≤ f₁ → text.length ≤ f₂ →
    modLoopF f₁ text = modLoopF f₂ text := by
  intro n
  induction n with
  | zero =>
    intro text f₁ f₂ hn _ _
    have htext : text = [] := by cases text with
      | nil => rfl
      | cons c cs => simp at hn
    subst htext
    cases f₁ <;> cases f₂ <;> rfl
  | succ n ih =>
    intro text f₁ f₂ hn h1 h2
    match text with
    | [] => cases f₁ <;> cases f₂ <;> rfl
    | c :: cs =>
      obtain ⟨g₁, rfl⟩ : ∃ g, f₁ = g + 1 := ⟨f₁ - 1, by simp at h1; omega⟩
      obtain ⟨g₂, rfl⟩ : ∃ g, f₂ = g + 1 := ⟨f₂ - 1, by simp at h2; omega⟩
      cases hf : findMod (c :: cs) with
      | none => simp only [modLoopF, hf]
      | some m =>
        have hlt := findMod_drop_lt hf
        simp only [modLoopF, hf]
        congr 1
        exact ih _ g₁ g₂ (by omega) (by omega) (by omega)

/-- Lines 257–260 of `Chord.from_text`: consume `m` as the minor marker
unless the following two characters are `aj`. -/
def parseScale (text : List Char) : Scale × List Char :=
  match text with
  | 'm' :: tl =>
    if tl.take 2 = ['a', 'j'] then (Scale.major, 'm' :: tl) else (Scale.minor, tl)
  | _ => (Scale.major, text)

/-- Lines 251–255 of `Chord.from_text`: the optional accidental after the
root letter, recorded as the spelling preference and applied via
`"b#".index(shiftpref) * 2 - 1`. -/
def parseAcc (v0 : Nat) (rest : List Char) : Option Char × Int × List Char :=
  match rest with
  | c :: tl =>
    if c = '#' then (some c, (((v0 : Int) + 1) % 12), tl)
    else if c = 'b' then (some c, (((v0 : Int) - 1) % 12), tl)
    else (none, (v0 : Int), rest)
  | [] => (none, (v0 : Int), [])

/-- `Chord.from_text` on a character list: root letter, optional
accidental (recorded as the spelling preference), minor marker, then the
modifier loop; the parsed pieces go through `Chord.__init__`. -/
def fromTextL (cs : List Char) : Except String Chord :=
  match cs with
  | [] => .error ("IndexError")
  | c0 :: rest =>
    match noteIndex c0 with
    | none => .error ("ValueError: not in list")
    | some v0 =>
      match parseAcc v0 rest with
      | (spref, v1, rest1) =>
        match parseScale rest1 with
        | (scale, rest2) =>
          (modLoop rest2).map (fun p => Chord.init v1 scale spref p.1 p.2)

/-- `Chord.from_text` on a string token. -/
def Chord.fromText (s : String) : Except String Chord :=
  fromTextL s.toList

/-- Python `\s` (whitespace) on the characters that can occur in a line. -/
def isSp (c : Char) : Bool :=
  c = ' ' || c = '\t' || c = '\n' || c = '\r' || c = '\x0b' || c = '\x0c'

/-- `re.finditer(r"\S+", cline)`: every maximal run of non-whitespace
characters, paired with its starting column (`match.span()[0]`).  The scan
is written right-to-left: a non-space character either extends a run that
starts at the very next column or opens a new run. -/
def tok : List Char → Nat → List (Nat × List Char)
  | [], _ => []
  | c :: cs, pos =>
    let rest := tok cs (pos + 1)
    if isSp c then rest
    else
      match rest with
      | (p, t) :: more =>
        if p = pos + 1 then (pos, c :: t) :: more else (pos, [c]) :: (p, t) :: more
      | [] => [(pos, [c])]

/-- `clump(iterable, 2)`: consecutive non-overlapping pairs; a final
unpaired element is dropped (the `StopIteration` inside the clump body). -/
def pairs {α : Type} : List α → List (α × α)
  | a :: b :: rest => (a, b) :: pairs rest
  | _ => []

/-- Python `text.split("\n")` (the separator is a single newline; a split
of the empty string is `[""]`). -/
def splitNl : List Char → List (List Char)
  | [] => [[]]
  | '\n' :: cs => [] :: splitNl cs
  | c :: cs =>
    match splitNl cs with
    | l :: ls => (c :: l) :: ls
    | [] => [[c]]

/-- Python `text.split("\n\n")`: split on non-overlapping occurrences of a
blank line, scanning left to right. -/
def splitNl2 : List Char → List (List Char)
  | [] => [[]]
  | '\n' :: '\n' :: cs => [] :: splitNl2 cs
  | c :: cs =>
    match splitNl2 cs with
    | l :: ls => (c :: l) :: ls
    | [] => [[c]]

/-- The chord-line loop of `Segment.from_text` (lines 102–104): parse each
token of the chord line, keyed by starting column; the first `InvalidChord`
aborts the whole parse. -/
def parseChordToks : List (Nat × List Char) → Except String (List (Nat × Chord))
  | [] => .ok []
  | (p, t) :: rest =>
    match fromTextL t with
    | .error e => .error e
    | .ok c =>
      match parseChordToks rest with
      | .error e => .error e
      | .ok others => .ok ((p, c) :: others)

/-- Lines 99–105 of `Segment.from_text`: consume `(chord-line, lyric-line)`
pairs, skipping a pair in which both lines are empty. -/
def buildLines : List (List Char × List Char) →
    Except String (List (String × List (Nat × Chord)))
  | [] => .ok []
  | (cline, tline) :: rest =>
    if cline = [] ∧ tline = [] then buildLines rest
    else
      match parseChordToks (tok cline 0) with
      | .error e => .error e
      | .ok chords =>
        match buildLines rest with
        | .error e => .error e
        | .ok others => .ok ((String.mk tline, chords) :: others)

/-- A segment: optional label and ordered `(lyric line, column ↦ chord)`
entries; the chord mapping is an insertion-ordered association list, the
model of the Python dict. -/
structure Segment where
  label : Option String
  lines : List (String × List (Nat × Chord))
deriving DecidableEq, Repr

/-- The tail of `Segment.from_text` (lines 99–106): build the line entries
from the body and attach the label. -/
def segMake (label : Option String) (body : List Char) : Except String Segment :=
  (buildLines (pairs (splitNl body))).map (fun lns => { label := label, lines := lns })

/-- `Segment.from_text`: when the block starts with `[`, the first line
(`takeWhile (≠ newline)`, exactly `partition("\n")`) is split off and the
label is that line with its first and last characters removed
(`first[1:-1]`) — no check that the line ends with `]`; otherwise the
fallback label is used.  The remaining lines are consumed in pairs. -/
def Segment.fromText (text : String) (defaultLabel : Option String) :
    Except String Segment :=
  if text.toList.head? = some '[' then
    segMake
      (some (String.mk (((text.toList.takeWhile (fun c => c ≠ '\n')).drop 1).dropLast)))
      (text.toList.drop ((text.toList.takeWhile (fun c => c ≠ '\n')).length + 1))
  else
    segMake defaultLabel text.toList

/-- The chord-line layout loop of `Segment.__str__` (lines 114–121):
`spaces = i - lo` spaces (a negative count writes nothing, as in Python),
then the chord, with `lo += spaces + len(chord)`. -/
def renderCLine (chords : List (Nat × Chord)) : String :=
  (chords.foldl
    (fun acc p =>
      let chord := Chord.toStr p.2
      let spaces : Int := (p.1 : Int) - acc.2
      (acc.1 ++ String.mk (List.replicate spaces.toNat ' ') ++ chord,
        acc.2 + spaces + (chord.length : Int)))
    ((""), (0 : Int))).1

/-- `Segment.__str__`: the `[label]` line when the label is truthy, then
for each entry the rebuilt chord line and the verbatim lyric line. -/
def Segment.toStr (seg : Segment) : String :=
  (match seg.label with
   | some l => if l ≠ ("") then ("[") ++ l ++ ("]\n") else ("")
   | none => ("")) ++
  String.join (seg.lines.map (fun ln => renderCLine ln.2 ++ ("\n") ++ ln.1 ++ ("\n")))

/-- Lines 130–136 of `Segment.to_tex`: the structural tag is the first
word of the label, lower-cased, when the label is truthy and lower-cases
to something starting with verse/chorus/bridge; otherwise `verse`. -/
def texLabel (lab : Option String) : String :=
  match lab with
  | some l =>
    if l ≠ ("") ∧ (([("verse"), ("chorus"), ("bridge")]).any
        (fun x => l.toLower.startsWith x)) then
      (String.mk (l.toList.takeWhile (fun c => ¬ isSp c))).toLower
    else ("verse")
  | none => ("verse")

/-- The character walk of `Segment.to_tex` (lines 140–144): before each
character at an index carrying a chord, an inline `^{...}` marker. -/
def texChars : List Char → Nat → List (Nat × Chord) → String
  | [], _, _ => ("")
  | c :: cs, i, chords =>
    (match chords.lookup i with
     | some ch => ("^\x7b") ++ Chord.toStr ch ++ ("\x7d")
     | none => ("")) ++ String.singleton c ++ texChars cs (i + 1) chords

/-- Ascending insertion, for `sorted(remaining)` (the keys are distinct,
so any ascending sort agrees with Python's). -/
def insertAsc (k : Nat) : List Nat → List Nat
  | [] => [k]
  | x :: xs => if k ≤ x then k :: x :: xs else x :: insertAsc k xs

/-- `sorted` on the remaining chord columns. -/
def sortAsc : List Nat → List Nat
  | [] => []
  | x :: xs => insertAsc x (sortAsc xs)

/-- One lyric line of `Segment.to_tex` (lines 140–151).  After the
character loop, `remaining = [k for k in chords if k > i]` reads the loop
variable `i`; when the line is empty and the mapping is not, `i` was never
bound and Python raises `NameError` — the comprehension on an empty
mapping never evaluates `k > i`, so an empty line with no chords is fine. -/
def texLine (line : String) (chords : List (Nat × Chord)) : Except String String :=
  let cs := line.toList
  let body := texChars cs 0 chords
  match cs with
  | [] =>
    match chords with
    | [] => .ok (body ++ (" \\\\\n"))
    | _ :: _ => .error ("NameError: name i is not defined")
  | _ :: _ =>
    let i := cs.length - 1
    let remaining := (chords.map Prod.fst).filter (fun k => decide (i < k))
    let trail :=
      if remaining = [] then ("")
      else
        String.join ((sortAsc remaining).map (fun k =>
          (" ^\x7b") ++ (match chords.lookup k with
                         | some ch => Chord.toStr ch
                         | none => ("")) ++ ("\x7d"))) ++ (" \\empty")
    .ok (body ++ trail ++ (" \\\\\n"))

/-- `Segment.to_tex`: begin tag, each lyric line, end tag. -/
def Segment.toTex (seg : Segment) : Except String String :=
  (seg.lines.mapM (fun ln => texLine ln.1 ln.2)).map (fun ls =>
    ("\\begin\x7b") ++ texLabel seg.label ++ ("\x7d\n")
      ++ String.join ls
      ++ ("\\end\x7b") ++ texLabel seg.label ++ ("\x7d\n"))

/-- `Segment.__add__`: transpose every chord of every line, keeping
columns and label. -/
def Segment.add (seg : Segment) (n : Int) : Segment :=
  { label := seg.label
    lines := seg.lines.map (fun ln => (ln.1, ln.2.map (fun kv => (kv.1, kv.2.add n)))) }

/-- `Segment.__iadd__`: in-place transpose via `Chord.__iadd__`. -/
def Segment.iadd (seg : Segment) (n : Int) : Segment :=
  { seg with
    lines := seg.lines.map (fun ln => (ln.1, ln.2.map (fun kv => (kv.1, kv.2.iadd n)))) }

/-- `Segment.__sub__`: `self + -other`. -/
def Segment.sub (seg : Segment) (n : Int) : Segment :=
  seg.add (-n)

/-- `Segment.__pos__`. -/
def Segment.pos (seg : Segment) : Segment :=
  { label := seg.label
    lines := seg.lines.map (fun ln => (ln.1, ln.2.map (fun kv => (kv.1, kv.2.pos)))) }

/-- `Segment.__neg__`. -/
def Segment.neg (seg : Segment) : Segment :=
  { label := seg.label
    lines := seg.lines.map (fun ln => (ln.1, ln.2.map (fun kv => (kv.1, kv.2.neg)))) }

/-- A song: the ordered list of segments. -/
structure Song where
  segments : List Segment
deriving DecidableEq, Repr

/-- The block loop of `Song.from_text`: each block is parsed with the
previous segment's label as the fallback (`last_label`), and the first
failure aborts the whole parse. -/
def parseSegs : List (List Char) → Option String → Except String (List Segment)
  | [], _ => .ok []
  | p :: rest, lastLabel =>
    match Segment.fromText (String.mk p) lastLabel with
    | .error e => .error e
    | .ok seg =>
      match parseSegs rest seg.label with
      | .error e => .error e
      | .ok others => .ok (seg :: others)

/-- `Song.from_text`: split on blank lines and parse the blocks. -/
def Song.fromText (text : String) : Except String Song :=
  (parseSegs (splitNl2 text.toList) none).map (fun segs => { segments := segs })

/-- Python `"\n".join(items)`. -/
def joinNl : List String → String
  | [] => ("")
  | [s] => s
  | s :: rest => s ++ ("\n") ++ joinNl rest

/-- `Song.__str__`: `"\n".join(str(seg) for seg in self.segments)`. -/
def Song.toStr (song : Song) : String :=
  joinNl (song.segments.map Segment.toStr)

/-- `Song.to_tex`: the fixed document template around the joined segment
renderings. -/
def Song.toTex (song : Song) : Except String String :=
  (song.segments.mapM Segment.toTex).map (fun ls =>
    ("\\begin\x7bsong\x7d[verse/numbered]\x7btitle=\x7b\x7d, music=\x7b\x7d\x7d\n")
      ++ joinNl ls ++ ("\n\\end\x7bsong\x7d"))

/-- `Song.__add__`. -/
def Song.add (song : Song) (n : Int) : Song :=
  { segments := song.segments.map (fun seg => seg.add n) }

/-- `Song.__iadd__`: transposes each segment in place. -/
def Song.iadd (song : Song) (n : Int) : Song :=
  { segments := song.segments.map (fun seg => seg.iadd n) }

/-- `Song.__sub__`. -/
def Song.sub (song : Song) (n : Int) : Song :=
  { segments := song.segments.map (fun seg => seg.sub n) }

/-- `Song.__pos__`. -/
def Song.pos (song : Song) : Song :=
  { segments := song.segments.map Segment.pos }

/-- `Song.__neg__`. -/
def Song.neg (song : Song) : Song :=
  { segments := song.segments.map Segment.neg }

/-- Pitch classes in range, as `Chord.__init__` establishes for every
chord built by the program. -/
def Chord.Wf (c : Chord) : Prop :=
  0 ≤ c.val ∧ c.val < 12 ∧ ∀ b ∈ c.bass, 0 ≤ b ∧ b < 12

/-- A chord with a bass at pitch class 0 (for example parsed from
`"G/C"`). -/
def exC1 : Chord :=
  { val := 7, scale := .major, shiftpref := none, mods := [], bass := some 0 }

/-- C1: the claim says transposition shifts a present bass by
`(bass + n) mod 12` *including a bass at pitch class 0*; the code's
truthiness test leaves a bass of 0 untouched: transposing `G/C` by one
keeps the bass at 0 instead of moving it to 1. -/
theorem C1_cex :
    exC1.bass = some 0 ∧ (exC1.add 1).bass = some 0 ∧
    (exC1.add 1).bass ≠ some ((0 + 1) % 12) ∧
    (exC1.iadd 1).bass ≠ some ((0 + 1) % 12) := by
  decide

/-- C1 (amended): `chord + n` returns a chord with root `(root + n) mod
12` and quality, modifiers and spelling hint unchanged; a present bass is
shifted to `(bass + n) mod 12` only when it is nonzero — a bass at pitch
class 0 (like an absent bass) is left unchanged, because the code tests
the bass for truthiness rather than for `None`.  The in-place variant
updates root and bass the same way. -/
theorem C1_transpose (c : Chord) (n : Int) :
    (c.add n).val = (c.val + n) % 12 ∧
    (c.add n).scale = c.scale ∧
    (c.add n).mods = c.mods ∧
    (c.add n).shiftpref = c.shiftpref ∧
    (c.add n).bass = (match c.bass with
      | none => none
      | some b => if b = 0 then some 0 else some ((b + n) % 12)) ∧
    (c.iadd n).val = (c.val + n) % 12 ∧
    (c.iadd n).scale = c.scale ∧
    (c.iadd n).mods = c.mods ∧
    (c.iadd n).shiftpref = c.shiftpref ∧
    (c.iadd n).bass = (match c.bass with
      | none => none
      | some b => if b = 0 then some 0 else some ((b + n) % 12)) := by
  refine ⟨rfl, rfl, rfl, rfl, ?_, rfl, rfl, rfl, rfl, ?_⟩ <;>
  · cases hb : c.bass with
    | none => simp [Chord.add, Chord.init, Chord.iadd, hb]
    | some b =>
      by_cases h0 : b = 0
      · simp [Chord.add, Chord.init, Chord.iadd, hb, h0]
      · by_cases h1 : b + n = 0
        · simp [Chord.add, Chord.init, Chord.iadd, hb, h0, h1]
        · simp [Chord.add, Chord.init, Chord.iadd, hb, h0, h1]

/-- A chord with a nonzero bass that transposition can park on pitch
class 0. -/
def exC2 : Chord :=
  { val := 0, scale := .major, shiftpref := none, mods := [], bass := some 1 }

/-- C2: `(c + n) + m = c + (n + m)` fails when the first transposition
moves a nonzero bass to pitch class 0: the second transposition then
treats it as absent and leaves it there. -/
theorem C2_cex :
    (exC2.add 11).add 1 ≠ exC2.add (11 + 1) ∧
    ((exC2.add 11).add 1).bass = some 0 ∧
    (exC2.add (11 + 1)).bass = some 1 := by
  decide

theorem Chord.eq_of_fields {c d : Chord} (h1 : c.val = d.val) (h2 : c.scale = d.scale)
    (h3 : c.shiftpref = d.shiftpref) (h4 : c.mods = d.mods) (h5 : c.bass = d.bass) :
    c = d := by
  cases c
  cases d
  simp_all

theorem Chord.add_bass (c : Chord) (n : Int) :
    (c.add n).bass = (match c.bass with
      | none => none
      | some b => if b = 0 then some 0 else some ((b + n) % 12)) := by
  cases hb : c.bass with
  | none => simp [Chord.add, Chord.init, hb]
  | some b =>
    by_cases h0 : b = 0
    · simp [Chord.add, Chord.init, hb, h0]
    · by_cases h1 : b + n = 0
      · simp [Chord.add, Chord.init, hb, h0, h1]
      · simp [Chord.add, Chord.init, hb, h0, h1]

/-- C2 (amended): `c - n = c + (-n)` holds unconditionally, and
`(c + n) + m = c + (n + m)` holds on the root, quality, modifiers and
spelling; on the bass it holds whenever the bass is absent, already 0, or
not parked on pitch class 0 by the first transposition (that is the one
failure: a nonzero bass with `(b + n) mod 12 = 0` freezes, see `C2_cex`).
Transposing by any multiple of 12 is the identity on the pitch-class
fields of a well-formed chord. -/
theorem C2_group (c : Chord) (n m k : Int) (h : c.Wf) :
    c.sub n = c.add (-n) ∧
    ((c.add n).add m).val = (c.add (n + m)).val ∧
    ((c.add n).add m).scale = (c.add (n + m)).scale ∧
    ((c.add n).add m).mods = (c.add (n + m)).mods ∧
    ((c.add n).add m).shiftpref = (c.add (n + m)).shiftpref ∧
    ((c.bass = none ∨ c.bass = some 0 ∨ ∀ b ∈ c.bass, (b + n) % 12 ≠ 0) →
      (c.add n).add m = c.add (n + m)) ∧
    (c.add (12 * k)).val = c.val ∧ (c.add (12 * k)).bass = c.bass := by
  obtain ⟨hv0, hv1, hbw⟩ := h
  have hval : ((c.add n).add m).val = (c.add (n + m)).val := by
    simp only [Chord.add, Chord.init]
    omega
  refine ⟨rfl, hval, rfl, rfl, rfl, ?_, ?_, ?_⟩
  · intro hcond
    refine Chord.eq_of_fields hval rfl rfl rfl ?_
    rw [Chord.add_bass, Chord.add_bass, Chord.add_bass]
    cases hb : c.bass with
    | none => rfl
    | some b =>
      by_cases h0 : b = 0
      · simp [h0]
      · have hbn : (b + n) % 12 ≠ 0 := by
          rcases hcond with hc | hc | hc
          · rw [hb] at hc; cases hc
          · rw [hb] at hc; injection hc with hc; exact absurd hc h0
          · exact hc b (by rw [hb]; rfl)
        simp only [if_neg h0, if_neg hbn]
        congr 1
        omega
  · simp only [Chord.add, Chord.init]
    omega
  · rw [Chord.add_bass]
    cases hb : c.bass with
    | none => rfl
    | some b =>
      have hbr := hbw b (by rw [hb]; rfl)
      by_cases h0 : b = 0
      · simp [h0, hb]
      · simp only [if_neg h0]
        congr 1
        omega

/-- The concrete chord used to instantiate `C2_group`. -/
def exC2w : Chord :=
  { val := 1, scale := .major, shiftpref := none, mods := [("7")], bass := some 2 }

/-- Witness for `C2_group` at a concrete chord and offsets. -/
theorem C2_group_witness :
    exC2w.sub 3 = exC2w.add (-3) ∧
    (exC2w.add 3).add 4 = exC2w.add (3 + 4) ∧
    (exC2w.add (12 * 5)).val = exC2w.val ∧
    (exC2w.add (12 * 5)).bass = exC2w.bass := by
  have hwf : exC2w.Wf := by
    refine ⟨by decide, by decide, ?_⟩
    intro b hb
    have hb' : some (2 : Int) = some b := hb
    injection hb' with hb2
    omega
  have h := C2_group exC2w 3 4 5 hwf
  refine ⟨h.1, h.2.2.2.2.2.1 ?_, h.2.2.2.2.2.2.1, h.2.2.2.2.2.2.2⟩
  right; right
  intro b hb
  have hb' : some (2 : Int) = some b := hb
  injection hb' with hb2
  omega

/-- C4: the claim says both renderers are total over parser output.  The
markup renderer is not: the block `"C\n"` parses to a line with empty
lyric text and a chord at column 0, and `to_tex` then evaluates
`[k for k in chords if k > i]` with the character-loop variable `i` never
bound — Python raises `NameError`.  (The plain renderer has no failing
path and is modelled as a total function.) -/
theorem C4_totality_bug :
    (Segment.fromText ("C\n") none).bind Segment.toTex
      = .error ("NameError: name i is not defined") ∧
    (Song.fromText ("C\n")).bind Song.toTex
      = .error ("NameError: name i is not defined") := by
  decide

theorem findMod_slash (cs : List Char) : findMod ('/' :: cs) = none := by
  rfl

/-- C5: the claim says `"C/E7"` parses successfully, the modifier loop
resuming after the slash bass; the code instead feeds `'7'` to
`"b#".index`, which raises. -/
theorem C5_cex :
    Chord.fromText ("C/E7") = .error ("ValueError: substring not found") := by
  decide

/-- C5 (amended): when no modifier matches and the remaining text starts
with `/`, the parser consumes the slash and exactly one note letter as the
bass; if any text remains, the single next character must be an accidental
(`b`/`#`) applied to the bass, and any text after that — or a
non-accidental character — fails the parse.  The modifier loop never
resumes after the bass, so a token like `"C/E7"` fails. -/
theorem C5_slash (c1 c2 cx cy : Char) (b : Nat) (d : Int) (rest rest2 : List Char)
    (hb : noteIndex c1 = some b) (hd : accIdx c2 = some d) (hx : accIdx cx = none)
    (hy : noteIndex cy = none) :
    modLoop ['/'] = .error ("IndexError") ∧
    modLoop ['/', c1] = .ok ([], some (b : Int)) ∧
    modLoop ['/', c1, c2] = .ok ([], some (((b : Int) + d * 2 - 1) % 12)) ∧
    (rest2 ≠ [] → modLoop ('/' :: c1 :: c2 :: rest2)
      = .error (("Remaining mods: ") ++ String.mk rest2)) ∧
    modLoop ('/' :: c1 :: cx :: rest) = .error ("ValueError: substring not found") ∧
    modLoop ('/' :: cy :: rest) = .error ("ValueError: not in list") := by
  refine ⟨rfl, ?_, ?_, ?_, ?_, ?_⟩
  · simp [modLoop, modLoopF, findMod_slash, hb]
  · simp [modLoop, modLoopF, findMod_slash, hb, hd]
  · intro hne
    simp [modLoop, modLoopF, findMod_slash, hb, hd, hne]
  · simp [modLoop, modLoopF, findMod_slash, hb, hx]
  · simp [modLoop, modLoopF, findMod_slash, hy]

/-- Witness for `C5_slash` at concrete characters. -/
theorem C5_slash_witness :
    modLoop ['/', 'E'] = .ok ([], some 4) ∧
    modLoop ['/', 'E', 'b'] = .ok ([], some 3) ∧
    modLoop ['/', 'E', '7'] = .error ("ValueError: substring not found") ∧
    modLoop ['/', 'X'] = .error ("ValueError: not in list") := by
  have h := C5_slash 'E' 'b' '7' 'X' 4 0 [] [] (by decide) (by decide) (by decide) (by decide)
  exact ⟨h.2.1, h.2.2.1, h.2.2.2.2.1, h.2.2.2.2.2⟩

/-- C6: `m` is consumed as the minor marker exactly when the two
characters after it are not `aj`; `"Dmaj7"` stays Major with modifier
`maj7`, `"Dm7"` is Minor with modifier `7`. -/
theorem C6_minor_guard :
    (∀ tl : List Char, parseScale ('m' :: tl)
        = if tl.take 2 = ['a', 'j'] then (Scale.major, 'm' :: tl) else (Scale.minor, tl)) ∧
    Chord.fromText ("Dmaj7") = .ok
      { val := 2, scale := .major, shiftpref := none, mods := [("maj7")], bass := none } ∧
    Chord.fromText ("Dm7") = .ok
      { val := 2, scale := .minor, shiftpref := none, mods := [("7")], bass := none } :=
  ⟨fun _ => rfl, by decide, by decide⟩

/-- The chord parsed from the token `C`. -/
def chordC : Chord :=
  { val := 0, scale := .major, shiftpref := none, mods := [], bass := none }

/-- C7: lines after the (optional) label are consumed in consecutive
non-overlapping pairs, a pair of two empty lines yields no entry, and a
final unpaired line is silently dropped.  The concrete block has a blank
pair, one real pair, and a dangling `"G"` that disappears without error. -/
theorem C7_pairing :
    (∀ (a b : List Char) (l : List (List Char)), pairs (a :: b :: l) = (a, b) :: pairs l) ∧
    (∀ a : List Char, pairs [a] = []) ∧
    (pairs ([] : List (List Char)) = []) ∧
    Segment.fromText ("\n\nC\nhello\nG") none
      = .ok { label := none, lines := [(("hello"), [(0, chordC)])] } :=
  ⟨fun _ _ _ => rfl, fun _ => rfl, rfl, by decide⟩

/-- C8: the claim says an unterminated label header fails the parse; the
code accepts it, blindly stripping first and last characters:
`"[Chorus"` parses fine with label `"Choru"`. -/
theorem C8_cex :
    Segment.fromText ("[Chorus") none = .ok { label := some ("Choru"), lines := [] } := by
  decide

theorem takeWhile_append_cons {α : Type} (p : α → Bool) (l₁ l₂ : List α) (a : α)
    (h : ∀ x ∈ l₁, p x = true) (ha : p a = false) :
    (l₁ ++ a :: l₂).takeWhile p = l₁ := by
  induction l₁ with
  | nil => simp [List.takeWhile_cons, ha]
  | cons x xs ih =>
    have hx : p x = true := h x (by simp)
    simp only [List.cons_append, List.takeWhile_cons, hx, if_true]
    rw [ih (fun y hy => h y (by simp [hy]))]

theorem drop_append_cons {α : Type} (l₁ l₂ : List α) (a : α) :
    (l₁ ++ a :: l₂).drop (l₁.length + 1) = l₂ := by
  have h : l₁ ++ a :: l₂ = (l₁ ++ [a]) ++ l₂ := by simp
  have hl : l₁.length + 1 = (l₁ ++ [a]).length := by simp
  rw [h, hl, List.drop_left]

/-- C8 (amended): a block whose first line starts with `[` is never
rejected for a malformed header: the label is always the first line with
its first and last characters removed (`first[1:-1]`), whatever those
characters are, and parsing proceeds normally — an unterminated header is
silently accepted with a mangled label rather than raising. -/
theorem C8_label (first body : String) (dl : Option String) (seg : Segment)
    (h1 : first.toList.head? = some '[') (h2 : '\n' ∉ first.toList)
    (h3 : Segment.fromText (first ++ ("\n") ++ body) dl = .ok seg) :
    seg.label = some (String.mk ((first.toList.drop 1).dropLast)) := by
  have hcs : (first ++ ("\n") ++ body).toList = first.toList ++ '\n' :: body.toList := by
    simp
  have htw : (first.toList ++ '\n' :: body.toList).takeWhile (fun c => c ≠ '\n')
      = first.toList := by
    apply takeWhile_append_cons
    · intro x hx
      simp only [ne_eq, decide_eq_true_eq]
      intro hxn
      exact h2 (hxn ▸ hx)
    · simp
  have hhd : (first.toList ++ '\n' :: body.toList).head? = some '[' := by
    cases hft : first.toList with
    | nil => rw [hft] at h1; cases h1
    | cons c0 cr => rw [hft] at h1; simp at h1; simp [hft, h1]
  unfold Segment.fromText at h3
  rw [hcs, htw, if_pos hhd, drop_append_cons] at h3
  unfold segMake at h3
  cases hbl : buildLines (pairs (splitNl body.toList)) with
  | error e => rw [hbl] at h3; exact Except.noConfusion h3
  | ok lns =>
    rw [hbl] at h3
    simp only [Except.map] at h3
    injection h3 with h3'
    rw [← h3']

/-- The segment used to instantiate `C8_label`. -/
def segW8 : Segment := { label := some ("Verse"), lines := [(("hi"), [(0, chordC)])] }

/-- Witness for `C8_label` at a well-formed concrete header. -/
theorem C8_label_witness :
    Segment.fromText (("[Verse]") ++ ("\n") ++ ("C\nhi")) none = .ok segW8 ∧
    segW8.label = some (String.mk ((("[Verse]").toList.drop 1).dropLast)) :=
  ⟨by decide, C8_label ("[Verse]") ("C\nhi") none segW8 (by decide) (by decide) (by decide)⟩

/-- The two-segment song parsed from `"C\nhi\n\nD\nyo"`. -/
def exSong9 : Song :=
  { segments :=
      [ { label := none, lines := [(("hi"), [(0, chordC)])] },
        { label := none,
          lines := [(("yo"),
            [(0, { val := 2, scale := .major, shiftpref := none, mods := [], bass := none })])] } ] }

/-- C9: the claim says the plain song rendering is the plain concatenation
of the segment renderings with no separator; the code joins them with
`"\n"`, so a two-segment song renders with a blank line between segments
and differs from the concatenation. -/
theorem C9_cex :
    Song.fromText ("C\nhi\n\nD\nyo") = .ok exSong9 ∧
    Song.toStr exSong9 = ("C\nhi\n\nD\nyo\n") ∧
    String.join (exSong9.segments.map Segment.toStr) = ("C\nhi\nD\nyo\n") ∧
    Song.toStr exSong9 ≠ String.join (exSong9.segments.map Segment.toStr) := by
  decide

/-- C9 (amended): the plain rendering is `"\n".join` of the segment
renderings; since every segment rendering carries its own trailing
newline, consecutive segments end up separated by one blank line, and only
for songs with at most one segment does the rendering equal the plain
concatenation. -/
theorem C9_join (song : Song) (s1 s2 : Segment) :
    Song.toStr song = joinNl (song.segments.map Segment.toStr) ∧
    Song.toStr { segments := [s1, s2] }
      = Segment.toStr s1 ++ ("\n") ++ Segment.toStr s2 ∧
    Song.toStr { segments := [s1] } = Segment.toStr s1 ∧
    Song.toStr { segments := [] } = ("") :=
  ⟨rfl, rfl, rfl, rfl⟩

/-- The per-line chord-column key lists of a segment, in storage
(enumeration) order. -/
def keyShape (seg : Segment) : List (List Nat) :=
  seg.lines.map (fun ln => ln.2.map Prod.fst)

theorem tok_ge : ∀ (cs : List Char) (pos : Nat) (q : Nat × List Char),
    q ∈ tok cs pos → pos ≤ q.1 := by
  intro cs
  induction cs with
  | nil => intro pos q hq; simp [tok] at hq
  | cons c cs ih =>
    intro pos q
    simp only [tok]
    split
    · intro hq
      exact Nat.le_of_succ_le (ih (pos + 1) q hq)
    · cases heq : tok cs (pos + 1) with
      | nil =>
        intro hq
        rcases hq with _ | ⟨_, hq'⟩
        · exact Nat.le_refl pos
        · cases hq'
      | cons r more =>
        obtain ⟨p, t⟩ := r
        change (q ∈ if p = pos + 1 then (pos, c :: t) :: more
          else (pos, [c]) :: (p, t) :: more) → pos ≤ q.1
        by_cases hp : p = pos + 1
        · rw [if_pos hp]
          intro hq
          rcases hq with _ | ⟨_, hq'⟩
          · exact Nat.le_refl pos
          · have hmem : q ∈ tok cs (pos + 1) := by
              rw [heq]
              exact List.mem_cons_of_mem _ hq'
            exact Nat.le_of_succ_le (ih (pos + 1) q hmem)
        · rw [if_neg hp]
          intro hq
          rcases hq with _ | ⟨_, hq'⟩
          · exact Nat.le_refl pos
          · have hmem : q ∈ tok cs (pos + 1) := by
              rw [heq]
              exact hq'
            exact Nat.le_of_succ_le (ih (pos + 1) q hmem)

theorem tok_chain : ∀ (cs : List Char) (pos : Nat),
    List.Chain' (· < ·) ((tok cs pos).map Prod.fst) := by
  intro cs
  induction cs with
  | nil => intro pos; simp [tok]
  | cons c cs ih =>
    intro pos
    simp only [tok]
    split
    · exact ih (pos + 1)
    · cases heq : tok cs (pos + 1) with
      | nil => simp
      | cons r more =>
        obtain ⟨p, t⟩ := r
        have ihc : List.Chain' (· < ·) (p :: more.map Prod.fst) := by
          have hx := ih (pos + 1)
          rw [heq] at hx
          exact hx
        change List.Chain' (· < ·) (List.map Prod.fst
          (if p = pos + 1 then (pos, c :: t) :: more else (pos, [c]) :: (p, t) :: more))
        by_cases hp : p = pos + 1
        · rw [if_pos hp]
          rw [List.map_cons]
          rw [List.chain'_cons'] at ihc ⊢
          refine ⟨?_, ihc.2⟩
          intro y hy
          have := ihc.1 y hy
          omega
        · rw [if_neg hp]
          have hpp : pos < p := by
            have hmem : (p, t) ∈ tok cs (pos + 1) := by
              rw [heq]
              exact List.mem_cons_self _ _
            have := tok_ge cs (pos + 1) (p, t) hmem
            omega
          simp only [List.map_cons]
          rw [List.chain'_cons]
          exact ⟨hpp, ihc⟩

theorem parseChordToks_fst : ∀ (ts : List (Nat × List Char)) (res : List (Nat × Chord)),
    parseChordToks ts = .ok res → res.map Prod.fst = ts.map Prod.fst := by
  intro ts
  induction ts with
  | nil =>
    intro res h
    injection h with h'
    rw [← h']
    rfl
  | cons q rest ih =>
    intro res h
    obtain ⟨p, t⟩ := q
    simp only [parseChordToks] at h
    cases hc : fromTextL t with
    | error e => rw [hc] at h; exact Except.noConfusion h
    | ok c =>
      rw [hc] at h
      cases hr : parseChordToks rest with
      | error e => rw [hr] at h; exact Except.noConfusion h
      | ok others =>
        rw [hr] at h
        injection h with h'
        rw [← h']
        simp [ih others hr]

theorem buildLines_sorted : ∀ (prs : List (List Char × List Char))
    (res : List (String × List (Nat × Chord))),
    buildLines prs = .ok res →
    ∀ p ∈ res, List.Chain' (· < ·) (p.2.map Prod.fst) := by
  intro prs
  induction prs with
  | nil =>
    intro res h p hp
    injection h with h'
    rw [← h'] at hp
    cases hp
  | cons q rest ih =>
    intro res h p hp
    obtain ⟨cl, tl⟩ := q
    simp only [buildLines] at h
    split at h
    · exact ih res h p hp
    · cases hc : parseChordToks (tok cl 0) with
      | error e => rw [hc] at h; exact Except.noConfusion h
      | ok chords =>
        rw [hc] at h
        cases hr : buildLines rest with
        | error e => rw [hr] at h; exact Except.noConfusion h
        | ok others =>
          rw [hr] at h
          injection h with h'
          rw [← h'] at hp
          cases hp with
          | head =>
            have hfst := parseChordToks_fst _ _ hc
            show List.Chain' (· < ·) (chords.map Prod.fst)
            rw [hfst]
            exact tok_chain cl 0
          | tail _ hp' => exact ih others hr p hp'

theorem segMake_sorted (label : Option String) (body : List Char) (seg : Segment)
    (h : segMake label body = .ok seg) :
    ∀ p ∈ seg.lines, List.Chain' (· < ·) (p.2.map Prod.fst) := by
  unfold segMake at h
  cases hbl : buildLines (pairs (splitNl body)) with
  | error e => rw [hbl] at h; exact Except.noConfusion h
  | ok lns =>
    rw [hbl] at h
    simp only [Except.map] at h
    injection h with h'
    intro p hp
    rw [← h'] at hp
    exact buildLines_sorted _ _ hbl p hp

/-- C10: each line of a parsed segment lists its chord columns in strictly
ascending order, and the pure and in-place transposition and respelling
operators on segments and songs preserve the key lists (set and
enumeration order), the lyric texts and labels — the invariant the plain
renderer's no-sort, gap-from-previous-token layout relies on. -/
theorem C10_sorted_columns :
    (∀ (text : String) (dl : Option String) (seg : Segment),
      Segment.fromText text dl = .ok seg →
      ∀ p ∈ seg.lines, List.Chain' (· < ·) (p.2.map Prod.fst)) ∧
    (∀ (seg : Segment) (n : Int),
      keyShape (seg.add n) = keyShape seg ∧ keyShape (seg.iadd n) = keyShape seg ∧
      keyShape seg.pos = keyShape seg ∧ keyShape seg.neg = keyShape seg ∧
      (seg.add n).label = seg.label ∧ (seg.iadd n).label = seg.label ∧
      seg.pos.label = seg.label ∧ seg.neg.label = seg.label ∧
      (seg.add n).lines.map Prod.fst = seg.lines.map Prod.fst ∧
      (seg.iadd n).lines.map Prod.fst = seg.lines.map Prod.fst) ∧
    (∀ (song : Song) (n : Int),
      (song.add n).segments.map keyShape = song.segments.map keyShape ∧
      (song.iadd n).segments.map keyShape = song.segments.map keyShape ∧
      song.pos.segments.map keyShape = song.segments.map keyShape ∧
      song.neg.segments.map keyShape = song.segments.map keyShape) := by
  refine ⟨?_, ?_, ?_⟩
  · intro text dl seg h
    unfold Segment.fromText at h
    split at h
    · exact segMake_sorted _ _ _ h
    · exact segMake_sorted _ _ _ h
  · intro seg n
    refine ⟨?_, ?_, ?_, ?_, rfl, rfl, rfl, rfl, ?_, ?_⟩ <;>
      simp [keyShape, Segment.add, Segment.iadd, Segment.pos, Segment.neg,
        List.map_map, Function.comp]
  · intro song n
    have hadd : ∀ s : Segment, keyShape (s.add n) = keyShape s := by
      intro s
      simp [keyShape, Segment.add, List.map_map, Function.comp]
    have hiadd : ∀ s : Segment, keyShape (s.iadd n) = keyShape s := by
      intro s
      simp [keyShape, Segment.iadd, List.map_map, Function.comp]
    have hpos : ∀ s : Segment, keyShape s.pos = keyShape s := by
      intro s
      simp [keyShape, Segment.pos, List.map_map, Function.comp]
    have hneg : ∀ s : Segment, keyShape s.neg = keyShape s := by
      intro s
      simp [keyShape, Segment.neg, List.map_map, Function.comp]
    refine ⟨?_, ?_, ?_, ?_⟩ <;>
      simp [Song.add, Song.iadd, Song.pos, Song.neg, List.map_map, Function.comp,
        hadd, hiadd, hpos, hneg]

/-- The chord parsed from the token `G`. -/
def chordG : Chord :=
  { val := 7, scale := .major, shiftpref := none, mods := [], bass := none }

/-- The segment parsed from `"C  G\nhello"`. -/
def segW10 : Segment :=
  { label := none, lines := [(("hello"), [(0, chordC), (3, chordG)])] }

/-- Witness for `C10_sorted_columns` at a concrete parsed segment. -/
theorem C10_sorted_columns_witness :
    Segment.fromText ("C  G\nhello") none = .ok segW10 ∧
    (∀ p ∈ segW10.lines, List.Chain' (· < ·) (p.2.map Prod.fst)) ∧
    keyShape (segW10.add 1) = keyShape segW10 :=
  ⟨by decide, C10_sorted_columns.1 ("C  G\nhello") none segW10 (by decide),
   (C10_sorted_columns.2.1 segW10 1).1⟩

theorem chPre_self : ∀ (l rest : List Char), chPre l (l ++ rest) = true := by
  intro l rest
  induction l with
  | nil => rfl
  | cons a as ih => simp [chPre, ih]

theorem chPre_append_cases : ∀ (E M rest : List Char),
    chPre E (M ++ rest) = true → chPre E M = true ∨ chPre M E = true := by
  intro E
  induction E with
  | nil => intro M rest _; left; rfl
  | cons a as ih =>
    intro M rest h
    cases M with
    | nil => right; rfl
    | cons b bs =>
      rw [List.cons_append] at h
      simp only [chPre] at h ⊢
      by_cases hab : a = b
      · rw [if_pos hab] at h
        rcases ih bs rest h with h1 | h1
        · left; rw [if_pos hab]; exact h1
        · right; rw [if_pos hab.symm]; exact h1
      · rw [if_neg hab] at h
        exact absurd h (by simp)

/-- No vocabulary entry is a text-prefix of a different one, in either
direction; with the fixed listed order this is what makes the matching
loop unambiguous on concatenations. -/
theorem modsChars_nopre : ∀ E ∈ modsChars, ∀ M ∈ modsChars, E ≠ M → chPre E M = false := by
  decide

theorem find?_unique {α : Type} (p : α → Bool) (m : α) :
    ∀ L : List α, m ∈ L → (∀ E ∈ L, (p E = true ↔ E = m)) → L.find? p = some m := by
  intro L
  induction L with
  | nil => intro h; cases h
  | cons a l ih =>
    intro hm hp
    by_cases hpa : p a = true
    · have ha : a = m := (hp a (List.mem_cons_self a l)).mp hpa
      rw [List.find?_cons_of_pos _ hpa, ha]
    · rw [List.find?_cons_of_neg _ hpa]
      have hml : m ∈ l := by
        rcases List.mem_cons.mp hm with rfl | hml
        · exact absurd ((hp m (List.mem_cons_self m l)).mpr rfl) hpa
        · exact hml
      exact ih hml (fun E hE => hp E (List.mem_cons_of_mem a hE))

theorem findMod_append (m : List Char) (hm : m ∈ modsChars) (rest : List Char) :
    findMod (m ++ rest) = some m := by
  unfold findMod
  apply find?_unique _ m _ hm
  intro E hE
  constructor
  · intro hE2
    by_contra hne
    rcases chPre_append_cases E m rest hE2 with h1 | h1
    · rw [modsChars_nopre E hE m hm hne] at h1
      cases h1
    · rw [modsChars_nopre m hm E hE (fun hh => hne hh.symm)] at h1
      cases h1
  · intro he
    rw [he]
    exact chPre_self m rest

theorem except_map_map {ε α β γ : Type} (f : α → β) (g : β → γ) (e : Except ε α) :
    (e.map f).map g = e.map (fun x => g (f x)) := by
  cases e <;> rfl

/-- Stripping one vocabulary entry off the front of the remaining text. -/
theorem modLoop_append (m : List Char) (hm : m ∈ modsChars) (rest : List Char) :
    modLoop (m ++ rest) = (modLoop rest).map (fun p => (String.mk m :: p.1, p.2)) := by
  obtain ⟨c, m', rfl⟩ : ∃ c m', m = c :: m' := by
    cases hmm : m with
    | nil => rw [hmm] at hm; exact absurd hm (by decide)
    | cons c m' => exact ⟨c, m', rfl⟩
  have hfind : findMod (c :: (m' ++ rest)) = some (c :: m') := findMod_append _ hm rest
  have hlen : ((c :: m') ++ rest).length = (m'.length + rest.length) + 1 := by
    simp [List.length_append]
  show modLoopF ((c :: m') ++ rest).length ((c :: m') ++ rest) = _
  rw [hlen]
  show modLoopF ((m'.length + rest.length) + 1) (c :: (m' ++ rest)) = _
  simp only [modLoopF, hfind]
  have hdrop : (c :: (m' ++ rest)).drop (c :: m').length = rest := by
    show ((c :: m') ++ rest).drop (c :: m').length = rest
    exact List.drop_left _ _
  rw [hdrop, modLoopF_fuel rest.length rest (m'.length + rest.length) rest.length
    (Nat.le_refl _) (by omega) (Nat.le_refl _)]
  rfl

theorem toList_mem : ∀ m ∈ modsList, m.toList ∈ modsChars := by decide

/-- Stripping a whole canonical modifier sequence off the front. -/
theorem modLoop_join : ∀ (ms : List String), (∀ m ∈ ms, m ∈ modsList) → ∀ tail : List Char,
    modLoop ((ms.map String.toList).flatten ++ tail)
      = (modLoop tail).map (fun p => (ms ++ p.1, p.2)) := by
  intro ms
  induction ms with
  | nil =>
    intro _ tail
    show modLoop tail = _
    cases h : modLoop tail with
    | error e => rfl
    | ok p => rfl
  | cons m ms' ih =>
    intro hms tail
    have hm : m.toList ∈ modsChars := toList_mem m (hms m (List.mem_cons_self _ _))
    have hassoc : ((m :: ms').map String.toList).flatten ++ tail
        = m.toList ++ ((ms'.map String.toList).flatten ++ tail) := by
      simp [List.append_assoc]
    rw [hassoc, modLoop_append _ hm _,
      ih (fun x hx => hms x (List.mem_cons_of_mem _ hx)) tail, except_map_map]
    rfl

/-- Spec-side (from the claim's wording): sharp spellings of the twelve
pitch classes. -/
def sharpNames : List String :=
  [("C"), ("C#"), ("D"), ("D#"), ("E"), ("F"), ("F#"), ("G"), ("G#"), ("A"),
   ("A#"), ("B")]

/-- Spec-side: flat spellings of the twelve pitch classes (the default). -/
def flatNames : List String :=
  [("C"), ("Db"), ("D"), ("Eb"), ("E"), ("F"), ("Gb"), ("G"), ("Ab"), ("A"),
   ("Bb"), ("B")]

/-- Spec-side: the canonical name of a pitch class under a recorded
spelling hint — naturals spelled plainly, accidentals with the hint's
character, flat when the hint is absent (the default). -/
def canonName (hint : Option Char) (pc : Nat) : String :=
  if hint = some '#' then sharpNames.getD pc ("") else flatNames.getD pc ("")

/-- Spec-side: the canonical root spellings — a natural pitch class is
spelled plainly and records no hint; an accidental pitch class is spelled
with the accidental character that becomes the recorded hint. -/
def rootSpellings : List (Nat × String × Option Char) :=
  [(0, ("C"), none), (2, ("D"), none), (4, ("E"), none), (5, ("F"), none),
   (7, ("G"), none), (9, ("A"), none), (11, ("B"), none),
   (1, ("C#"), some '#'), (3, ("D#"), some '#'), (6, ("F#"), some '#'),
   (8, ("G#"), some '#'), (10, ("A#"), some '#'),
   (1, ("Db"), some 'b'), (3, ("Eb"), some 'b'), (6, ("Gb"), some 'b'),
   (8, ("Ab"), some 'b'), (10, ("Bb"), some 'b')]

/-- Spec-side: the characters of the optional minor marker. -/
def minorChars (minor : Bool) : List Char :=
  if minor then ['m'] else []

/-- Spec-side: the characters of the optional slash bass, spelled with the
chord's recorded hint. -/
def bassChars (hint : Option Char) (bass : Option Nat) : List Char :=
  match bass with
  | some b => '/' :: (canonName hint b).toList
  | none => []

/-- Spec-side: the rendered text of the optional slash bass. -/
def bassStr (hint : Option Char) (bass : Option Nat) : String :=
  match bass with
  | some b => ("/") ++ canonName hint b
  | none => ("")

/-- Spec-side, from the claim: a canonical chord token in default
spelling — canonical root, optional `m`, any modifier sequence from the
vocabulary, optional slash bass whose accidental matches the recorded
hint. -/
def CanonicalToken (t : String) : Prop :=
  ∃ (pc : Nat) (rs : String) (hint : Option Char) (minor : Bool)
    (ms : List String) (bass : Option Nat),
    (pc, rs, hint) ∈ rootSpellings ∧
    (∀ m ∈ ms, m ∈ modsList) ∧
    (∀ b ∈ bass, b < 12) ∧
    t = rs ++ (if minor then ("m") else ("")) ++ String.join ms
      ++ bassStr hint bass

/-- Evaluating the modifier loop on a canonical bass tail. -/
theorem modLoop_canonBass (hint : Option Char) (b : Nat) (hb : b < 12) :
    modLoop ('/' :: (canonName hint b).toList) = .ok ([], some (b : Int)) := by
  unfold canonName
  by_cases hs : hint = some '#'
  · rw [if_pos hs]
    interval_cases b <;> decide
  · rw [if_neg hs]
    interval_cases b <;> decide

theorem modLoop_bassChars (hint : Option Char) (bass : Option Nat)
    (hb : ∀ b ∈ bass, b < 12) :
    modLoop (bassChars hint bass) = .ok ([], bass.map (fun b => (b : Int))) := by
  cases bass with
  | none => rfl
  | some b => exact modLoop_canonBass hint b (hb b rfl)

theorem mods_scale_facts : ∀ m ∈ modsList, ∀ rest : List Char,
    parseScale (m.toList ++ rest) = (Scale.major, m.toList ++ rest) ∧
    (m.toList ++ rest).take 2 ≠ ['a', 'j'] ∧
    (m.toList ++ rest).head? ≠ some '#' ∧ (m.toList ++ rest).head? ≠ some 'b' := by
  intro m hm rest
  fin_cases hm <;> refine ⟨?_, ?_, ?_, ?_⟩ <;> simp [parseScale, List.take]

/-- The text after the root of a canonical token: minor marker, modifier
characters, bass characters. -/
def canonTail (minor : Bool) (ms : List String) (hint : Option Char)
    (bass : Option Nat) : List Char :=
  minorChars minor ++ ((ms.map String.toList).flatten ++ bassChars hint bass)

theorem canonTail_head (minor : Bool) (ms : List String)
    (hms : ∀ m ∈ ms, m ∈ modsList) (hint : Option Char) (bass : Option Nat) :
    (canonTail minor ms hint bass).head? ≠ some '#' ∧
    (canonTail minor ms hint bass).head? ≠ some 'b' := by
  cases minor with
  | true => simp [canonTail, minorChars]
  | false =>
    simp only [canonTail, minorChars, Bool.false_eq_true, if_false, List.nil_append]
    cases ms with
    | cons m ms' =>
      have h := mods_scale_facts m (hms m (List.mem_cons_self m ms'))
        ((ms'.map String.toList).flatten ++ bassChars hint bass)
      rw [List.map_cons, List.flatten_cons, List.append_assoc]
      exact ⟨h.2.2.1, h.2.2.2⟩
    | nil =>
      simp only [List.map_nil, List.flatten_nil, List.nil_append]
      cases bass with
      | none => simp [bassChars]
      | some b => simp [bassChars]

theorem canonTail_scale (minor : Bool) (ms : List String)
    (hms : ∀ m ∈ ms, m ∈ modsList) (hint : Option Char) (bass : Option Nat) :
    parseScale (canonTail minor ms hint bass)
      = ((if minor then Scale.minor else Scale.major),
         (ms.map String.toList).flatten ++ bassChars hint bass) := by
  cases minor with
  | false =>
    simp only [canonTail, minorChars, Bool.false_eq_true, if_false, List.nil_append]
    cases ms with
    | cons m ms' =>
      have h := mods_scale_facts m (hms m (List.mem_cons_self m ms'))
        ((ms'.map String.toList).flatten ++ bassChars hint bass)
      rw [List.map_cons, List.flatten_cons, List.append_assoc]
      exact h.1
    | nil =>
      simp only [List.map_nil, List.flatten_nil, List.nil_append]
      cases bass with
      | none => rfl
      | some b => rfl
  | true =>
    have htake : ((ms.map String.toList).flatten ++ bassChars hint bass).take 2
        ≠ ['a', 'j'] := by
      cases ms with
      | cons m ms' =>
        have h := mods_scale_facts m (hms m (List.mem_cons_self m ms'))
          ((ms'.map String.toList).flatten ++ bassChars hint bass)
        rw [List.map_cons, List.flatten_cons, List.append_assoc]
        exact h.2.1
      | nil =>
        simp only [List.map_nil, List.flatten_nil, List.nil_append]
        cases bass with
        | none => simp [bassChars]
        | some b => simp [bassChars]
    show parseScale ('m' :: ((ms.map String.toList).flatten ++ bassChars hint bass)) = _
    simp [parseScale, htake]

theorem parseAcc_none (v0 : Nat) (rest : List Char)
    (h1 : rest.head? ≠ some '#') (h2 : rest.head? ≠ some 'b') :
    parseAcc v0 rest = (none, (v0 : Int), rest) := by
  cases rest with
  | nil => rfl
  | cons c tl =>
    simp only [List.head?_cons, ne_eq, Option.some.injEq] at h1 h2
    simp [parseAcc, h1, h2]

theorem fromTextL_eval (c0 : Char) (rest : List Char) (v0 : Nat) (spref : Option Char)
    (v1 : Int) (rest1 rest2 : List Char) (scale : Scale) (ms : List String)
    (bassv : Option Int)
    (h0 : noteIndex c0 = some v0)
    (h1 : parseAcc v0 rest = (spref, v1, rest1))
    (h2 : parseScale rest1 = (scale, rest2))
    (h3 : modLoop rest2 = .ok (ms, bassv)) :
    fromTextL (c0 :: rest) = .ok (Chord.init v1 scale spref ms bassv) := by
  simp only [fromTextL, h0, h1, h2, h3, Except.map]

theorem init_canon (pc : Nat) (hpc : pc < 12) (scale : Scale) (hint : Option Char)
    (ms : List String) (bass : Option Nat) (hb : ∀ b ∈ bass, b < 12) :
    Chord.init (pc : Int) scale hint ms (bass.map (fun b => (b : Int)))
      = { val := (pc : Int), scale := scale, shiftpref := hint, mods := ms,
          bass := bass.map (fun b => (b : Int)) } := by
  unfold Chord.init
  refine Chord.eq_of_fields ?_ rfl rfl rfl ?_
  · show (pc : Int) % 12 = (pc : Int)
    apply Int.emod_eq_of_lt
    · exact Int.ofNat_nonneg pc
    · exact_mod_cast hpc
  · cases bass with
    | none => rfl
    | some b =>
      have hblt : b < 12 := hb b rfl
      show (if (b : Int) = 0 then some 0 else some ((b : Int) % 12)) = some ((b : Nat) : Int)
      by_cases h0 : (b : Int) = 0
      · rw [if_pos h0, h0]
      · rw [if_neg h0, Int.emod_eq_of_lt (Int.ofNat_nonneg b) (by exact_mod_cast hblt)]

theorem parseAcc_sharp (v0 : Nat) (tl : List Char) :
    parseAcc v0 ('#' :: tl) = (some '#', ((v0 : Int) + 1) % 12, tl) := rfl

theorem parseAcc_flat (v0 : Nat) (tl : List Char) :
    parseAcc v0 ('b' :: tl) = (some 'b', ((v0 : Int) - 1) % 12, tl) := rfl

/-- Parsing a canonical token yields exactly the canonical chord. -/
theorem parse_canon (pc : Nat) (rs : String) (hint : Option Char)
    (hroot : (pc, rs, hint) ∈ rootSpellings) (minor : Bool) (ms : List String)
    (hms : ∀ m ∈ ms, m ∈ modsList) (bass : Option Nat) (hb : ∀ b ∈ bass, b < 12) :
    fromTextL (rs.toList ++ canonTail minor ms hint bass)
      = .ok { val := (pc : Int), scale := if minor then Scale.minor else Scale.major,
              shiftpref := hint, mods := ms,
              bass := bass.map (fun b => (b : Int)) } := by
  have hhead := canonTail_head minor ms hms hint bass
  have hscale := canonTail_scale minor ms hms hint bass
  have hmod : modLoop ((ms.map String.toList).flatten ++ bassChars hint bass)
      = .ok (ms, bass.map (fun b => (b : Int))) := by
    rw [modLoop_join ms hms _, modLoop_bassChars hint bass hb]
    simp [Except.map]
  fin_cases hroot
  · exact (fromTextL_eval 'C' _ 0 _ _ _ _ _ ms _ rfl
        (parseAcc_none 0 _ hhead.1 hhead.2) hscale hmod).trans
      (congrArg Except.ok (init_canon 0 (by omega) _ _ ms bass hb))
  · exact (fromTextL_eval 'D' _ 2 _ _ _ _ _ ms _ rfl
        (parseAcc_none 2 _ hhead.1 hhead.2) hscale hmod).trans
      (congrArg Except.ok (init_canon 2 (by omega) _ _ ms bass hb))
  · exact (fromTextL_eval 'E' _ 4 _ _ _ _ _ ms _ rfl
        (parseAcc_none 4 _ hhead.1 hhead.2) hscale hmod).trans
      (congrArg Except.ok (init_canon 4 (by omega) _ _ ms bass hb))
  · exact (fromTextL_eval 'F' _ 5 _ _ _ _ _ ms _ rfl
        (parseAcc_none 5 _ hhead.1 hhead.2) hscale hmod).trans
      (congrArg Except.ok (init_canon 5 (by omega) _ _ ms bass hb))
  · exact (fromTextL_eval 'G' _ 7 _ _ _ _ _ ms _ rfl
        (parseAcc_none 7 _ hhead.1 hhead.2) hscale hmod).trans
      (congrArg Except.ok (init_canon 7 (by omega) _ _ ms bass hb))
  · exact (fromTextL_eval 'A' _ 9 _ _ _ _ _ ms _ rfl
        (parseAcc_none 9 _ hhead.1 hhead.2) hscale hmod).trans
      (congrArg Except.ok (init_canon 9 (by omega) _ _ ms bass hb))
  · exact (fromTextL_eval 'B' _ 11 _ _ _ _ _ ms _ rfl
        (parseAcc_none 11 _ hhead.1 hhead.2) hscale hmod).trans
      (congrArg Except.ok (init_canon 11 (by omega) _ _ ms bass hb))
  · exact (fromTextL_eval 'C' _ 0 _ _ _ _ _ ms _ rfl
        (parseAcc_sharp 0 _) hscale hmod).trans
      (congrArg Except.ok (init_canon 1 (by omega) _ _ ms bass hb))
  · exact (fromTextL_eval 'D' _ 2 _ _ _ _ _ ms _ rfl
        (parseAcc_sharp 2 _) hscale hmod).trans
      (congrArg Except.ok (init_canon 3 (by omega) _ _ ms bass hb))
  · exact (fromTextL_eval 'F' _ 5 _ _ _ _ _ ms _ rfl
        (parseAcc_sharp 5 _) hscale hmod).trans
      (congrArg Except.ok (init_canon 6 (by omega) _ _ ms bass hb))
  · exact (fromTextL_eval 'G' _ 7 _ _ _ _ _ ms _ rfl
        (parseAcc_sharp 7 _) hscale hmod).trans
      (congrArg Except.ok (init_canon 8 (by omega) _ _ ms bass hb))
  · exact (fromTextL_eval 'A' _ 9 _ _ _ _ _ ms _ rfl
        (parseAcc_sharp 9 _) hscale hmod).trans
      (congrArg Except.ok (init_canon 10 (by omega) _ _ ms bass hb))
  · exact (fromTextL_eval 'D' _ 2 _ _ _ _ _ ms _ rfl
        (parseAcc_flat 2 _) hscale hmod).trans
      (congrArg Except.ok (init_canon 1 (by omega) _ _ ms bass hb))
  · exact (fromTextL_eval 'E' _ 4 _ _ _ _ _ ms _ rfl
        (parseAcc_flat 4 _) hscale hmod).trans
      (congrArg Except.ok (init_canon 3 (by omega) _ _ ms bass hb))
  · exact (fromTextL_eval 'G' _ 7 _ _ _ _ _ ms _ rfl
        (parseAcc_flat 7 _) hscale hmod).trans
      (congrArg Except.ok (init_canon 6 (by omega) _ _ ms bass hb))
  · exact (fromTextL_eval 'A' _ 9 _ _ _ _ _ ms _ rfl
        (parseAcc_flat 9 _) hscale hmod).trans
      (congrArg Except.ok (init_canon 8 (by omega) _ _ ms bass hb))
  · exact (fromTextL_eval 'B' _ 11 _ _ _ _ _ ms _ rfl
        (parseAcc_flat 11 _) hscale hmod).trans
      (congrArg Except.ok (init_canon 10 (by omega) _ _ ms bass hb))

theorem rootSpellings_name : ∀ x ∈ rootSpellings, num2str x.2.2 ((x.1 : Nat) : Int) = x.2.1 := by
  decide

theorem num2str_canon (hint : Option Char) (b : Nat) (hb : b < 12) :
    num2str hint (b : Int) = canonName hint b := by
  unfold canonName
  by_cases hs : hint = some '#'
  · rw [if_pos hs, hs]
    interval_cases b <;> decide
  · rw [if_neg hs]
    interval_cases b <;> simp [num2str, noteAt, notes, hs] <;> rfl

theorem render_canon (pc : Nat) (rs : String) (hint : Option Char) (minor : Bool)
    (ms : List String) (bass : Option Nat) (hb : ∀ b ∈ bass, b < 12)
    (hname : num2str hint (pc : Int) = rs) :
    Chord.toStr { val := (pc : Int), scale := (if minor then Scale.minor else Scale.major),
                  shiftpref := hint, mods := ms,
                  bass := bass.map (fun b => (b : Int)) }
      = rs ++ (if minor then ("m") else ("")) ++ String.join ms
        ++ bassStr hint bass := by
  cases bass with
  | none =>
    cases minor <;> simp [Chord.toStr, bassStr, hname]
  | some b =>
    have hbn : num2str hint (b : Int) = canonName hint b := num2str_canon hint b (hb b rfl)
    cases minor <;> simp [Chord.toStr, bassStr, hname, hbn]

theorem foldl_toList (ms : List String) : ∀ init : String,
    (ms.foldl (· ++ ·) init).toList = init.toList ++ (ms.map String.toList).flatten := by
  induction ms with
  | nil => intro init; simp
  | cons s rest ih =>
    intro init
    simp only [List.foldl_cons, List.map_cons, List.flatten_cons]
    rw [ih (init ++ s)]
    simp [List.append_assoc]

theorem join_toList (ms : List String) :
    (String.join ms).toList = (ms.map String.toList).flatten := by
  have h := foldl_toList ms ("")
  simpa [String.join] using h

theorem toListFun_eq : String.toList = String.data := rfl

theorem canonChars (rs : String) (minor : Bool) (ms : List String) (hint : Option Char)
    (bass : Option Nat) :
    (rs ++ (if minor then ("m") else ("")) ++ String.join ms
      ++ bassStr hint bass).toList
    = rs.toList ++ canonTail minor ms hint bass := by
  cases minor <;> cases bass <;>
    simp [canonTail, minorChars, bassChars, bassStr, join_toList, toListFun_eq,
      List.append_assoc]

/-- C3: for every canonical-form chord token in the default spelling
(naturals plain, accidentals spelled with the recorded hint's character),
rendering the parsed chord reproduces the token exactly:
`render(parse(t)) = t`. -/
theorem C3_roundtrip (t : String) (h : CanonicalToken t) :
    (Chord.fromText t).map Chord.toStr = .ok t := by
  obtain ⟨pc, rs, hint, minor, ms, bass, hroot, hms, hb, ht⟩ := h
  have hname : num2str hint (pc : Int) = rs := rootSpellings_name (pc, rs, hint) hroot
  have hparse := parse_canon pc rs hint hroot minor ms hms bass hb
  have hrender := render_canon pc rs hint minor ms bass hb hname
  have htl : t.toList = rs.toList ++ canonTail minor ms hint bass := by
    rw [ht]
    exact canonChars rs minor ms hint bass
  show (fromTextL t.toList).map Chord.toStr = .ok t
  rw [htl, hparse]
  show Except.ok (Chord.toStr _) = Except.ok t
  rw [hrender, ← ht]

/-- Witness for `C3_roundtrip` at the token `G#sus4/B`. -/
theorem C3_roundtrip_witness :
    CanonicalToken ("G#sus4/B") ∧
    (Chord.fromText ("G#sus4/B")).map Chord.toStr = .ok ("G#sus4/B") := by
  have hc : CanonicalToken ("G#sus4/B") := by
    refine ⟨8, ("G#"), some '#', false, [("sus4")], some 11, ?_, ?_, ?_, ?_⟩
    · decide
    · decide
    · intro b hbb
      have hx : some (11 : Nat) = some b := hbb
      injection hx with hx'
      omega
    · decide
  exact ⟨hc, C3_roundtrip ("G#sus4/B") hc⟩
